import Mathlib

/-!
Verification development for the Eng-to-IPA transcription server.

The Python sources are shallowly embedded over `List Char`:
strings become `List Char`, Python `str` methods become explicit list
functions, and each regular expression is translated into an equivalent
left-to-right scanner (the translation of each regex is justified in the
doc comment of the corresponding definition).

Character classes: Python `\w` (Unicode word characters) is modelled by
`pyWordChar`, which covers ASCII alphanumerics, the underscore, and the
IPA letters / modifier letters appearing in this code base (all of which
are word characters for Python `re`).  Python `\s` is modelled by
`isSpaceChar` over the ASCII whitespace characters.
-/

namespace IPA

/-- The apostrophe character (U+0027). -/
def apos : Char := Char.ofNat 39

/-- Shorthand: the characters of a string literal. -/
def strL (s : String) : List Char := s.toList

/-- IPA letters and modifier letters used by this code base.  All of
these are Unicode letters, hence word characters for Python `re.\w`. -/
def ipaLetters : List Char :=
  ['ð', 'ə', 'æ', 'ɑ', 'ɒ', 'ɔ', 'ʊ', 'ɪ', 'ʌ', 'ɜ', 'ɛ', 'ɹ', 'ɐ',
   'ʃ', 'ʒ', 'θ', 'ŋ', 'ʧ', 'ʤ', 'ʉ', 'ɘ', 'ɨ', 'ɵ', 'ɯ', 'ɤ', 'ɦ',
   'ɽ', 'ʎ', 'ɶ', 'ɟ', 'œ', 'ˈ', 'ˌ', 'ː']

/-- Model of Python `\w` (word character), restricted to the alphabet
relevant to this repository: ASCII alphanumerics, `_`, and the IPA
letters above. -/
def pyWordChar (c : Char) : Bool :=
  c.isAlphanum || c = '_' || ipaLetters.contains c

/-- Model of Python `\s` (ASCII whitespace). -/
def isSpaceChar (c : Char) : Bool :=
  c = ' ' || c = Char.ofNat 9 || c = Char.ofNat 10 || c = Char.ofNat 13 ||
  c = Char.ofNat 11 || c = Char.ofNat 12

/-- The fixed punctuation set (period, comma, bang, question mark,
semicolon, colon, apostrophe, hyphen) shared by the tokenizer and by
`punct_re` in both service variants. -/
def isPunct (c : Char) : Bool :=
  c = '.' || c = ',' || c = '!' || c = '?' || c = ';' || c = ':' ||
  c = apos || c = '-'

/-- `punct_re` (anchored one-or-more repetition of the punctuation
class) applied to a whole token: a nonempty token all of whose
characters are in the punctuation set. -/
def isPunctTok (t : List Char) : Bool :=
  !t.isEmpty && t.all isPunct

/-- The punctuation test used inside `LinkingRProcessor.apply_linking_r`
(transformers.py line 124) — note that this regex variant omits the
colon from the class. -/
def isPunctTokNoColon (t : List Char) : Bool :=
  !t.isEmpty && t.all (fun c =>
    c = '.' || c = ',' || c = '!' || c = '?' || c = ';' || c = apos || c = '-')

/-- Python `str.lower()` on the relevant alphabet (ASCII case folding;
the IPA characters used here have no upper-case forms). -/
def lowerL (l : List Char) : List Char := l.map Char.toLower

/-- The word normalisation used by every applicability test and by
`should_use_weak` (re.sub of the complement of word-or-apostrophe with
the empty string, after lower-casing): lower-case, then keep only word
characters and apostrophes. -/
def cleanWord (l : List Char) : List Char :=
  (lowerL l).filter (fun c => pyWordChar c || c = apos)

/-- The linking-R normalisation (re.sub of the complement of word
characters with the empty string, after lower-casing): unlike
`cleanWord` it also removes apostrophes. -/
def cleanWordNoApos (l : List Char) : List Char :=
  (lowerL l).filter pyWordChar

/-- Python `str.strip()`: remove leading and trailing whitespace. -/
def stripBoth (l : List Char) : List Char :=
  ((l.dropWhile isSpaceChar).reverse.dropWhile isSpaceChar).reverse

/-- Substring containment (Python `pat in s`). -/
def containsSub (pat : List Char) : List Char → Bool
  | [] => pat.isPrefixOf []
  | c :: cs => pat.isPrefixOf (c :: cs) || containsSub pat cs

/-- Split at the first occurrence of `pat` (Python `s.split(pat, 1)`:
the part before the first occurrence and the part after it).  Only ever
used under a `containsSub pat` guard, mirroring the source. -/
def splitFirst (pat : List Char) : List Char → List Char × List Char
  | [] => ([], [])
  | c :: cs =>
    if pat.isPrefixOf (c :: cs) then ([], (c :: cs).drop pat.length)
    else
      let p := splitFirst pat cs
      (c :: p.1, p.2)

/-- Python `s.replace(c, repl)` for a single-character pattern. -/
def replaceChar (c : Char) (repl : List Char) : List Char → List Char
  | [] => []
  | x :: xs => (if x = c then repl else [x]) ++ replaceChar c repl xs

/-- Python `s.replace(p1p2, r1r2)` for a two-character pattern and a
two-character replacement: non-overlapping, left to right. -/
def replace2 (p1 p2 r1 r2 : Char) : List Char → List Char
  | [] => []
  | [c] => [c]
  | c1 :: c2 :: rest =>
    if c1 = p1 ∧ c2 = p2 then r1 :: r2 :: replace2 p1 p2 r1 r2 rest
    else c1 :: replace2 p1 p2 r1 r2 (c2 :: rest)

/-- Python slicing `s[... :-2]`: drop the last two characters. -/
def dropRight2 (l : List Char) : List Char := l.take (l.length - 2)

/-! ## Form Parser (`WeakStrongParser.parse_format`, identical logic in
`IPATranscriptionService.parse_weak_strong_format`) -/

/-- Result of parsing a raw phonetic string: a plain form or a
strong/weak pair (Python returns a dict with key single, or with keys
strong and weak). -/
inductive ParsedForm where
  | single (t : List Char)
  | pair (strong weak : List Char)
deriving DecidableEq, Repr

/-- The opening delimiter `"/ "`. -/
def slashSp : List Char := ['/', ' ']

/-- The closing delimiter `" /"`. -/
def spSlash : List Char := [' ', '/']

/-- The pair separator `", "`. -/
def commaSp : List Char := [',', ' ']

/-- `ipa_text[2:-2]` — the content of a dual-form envelope. -/
def envContent (l : List Char) : List Char := dropRight2 (l.drop 2)

/-- `WeakStrongParser.parse_format` (phonetic_rules.py lines 366-387):
reject empty strings and strings without the exact `/ ... /` envelope
(returning the input verbatim as a single form); otherwise split the
stripped content at the first `", "` into a trimmed strong/weak pair,
or return the stripped content as a single form. -/
def parseFormat (l : List Char) : ParsedForm :=
  if l.isEmpty || !(slashSp.isPrefixOf l) || !(spSlash.isSuffixOf l) then
    .single l
  else if containsSub commaSp (envContent l) then
    .pair (stripBoth (splitFirst commaSp (envContent l)).1)
          (stripBoth (splitFirst commaSp (envContent l)).2)
  else
    .single (stripBoth (envContent l))

/-- The dual-form wire convention `"/ <strong>, <weak> /"`. -/
def envelope (strong weak : List Char) : List Char :=
  slashSp ++ strong ++ commaSp ++ weak ++ spSlash

/-- Re-joining a parsed form with `"/ "`, `", "`, `" /"` (the round-trip
direction of the round-trip testable property; a single form has no envelope
to re-join, so it is returned as-is). -/
def rejoinForm : ParsedForm → List Char
  | .single t => t
  | .pair strong weak => envelope strong weak

/-! ## Weak-Form Rule Chain (phonetic_rules.py)

Python integer comparisons such as `word_index < len(words) - 1` are over
unbounded signed integers; with a natural-number index they are rendered
as `idx + 1 < words.length` (equivalent for every `idx` and length,
including length 0, where the Python comparison against `-1` is false).
List subscripts `words[i]` are rendered as `words.getD i []`; every
subscript in the source is guarded so that `i` is in bounds whenever the
orchestrator calls the rule, making `getD` exact there. -/

/-- The rule evaluation context: current word index and the full token
list (the compiled `punct_re` member of the Python context dict is the
fixed predicate `isPunctTok`). -/
structure Ctx where
  wordIndex : Nat
  words : List (List Char)

/-- A phonetic rule: applicability test, decision, and the optional
custom weak-form capability (present exactly on the have and must
rules, mirroring `hasattr(rule, 'get_weak_form')`). -/
structure PhoneticRule where
  appliesTo : List Char → Ctx → Bool
  ruleApply : List Char → Ctx → Bool
  getWeakForm : Option (List Char → Ctx → List Char)

/-- `ContractionRule`: applies when the raw word contains an apostrophe;
decision: do not use the weak pair member. -/
def contractionRule : PhoneticRule where
  appliesTo w _ := w.contains apos
  ruleApply _ _ := false
  getWeakForm := none

/-- `TheVariationRule`: applies when the normalised word is the word
the; decision value false (handled in post-processing). -/
def theVariationRule : PhoneticRule where
  appliesTo w _ := cleanWord w = strL "the"
  ruleApply _ _ := false
  getWeakForm := none

/-- `ThereRule.be_verbs`. -/
def beVerbs : List (List Char) :=
  [strL "is", strL "are", strL "was", strL "were", strL "will",
   strL "would", [apos, 's'], [apos, 'r', 'e'], [apos, 'l', 'l']]

/-- `ThereRule`: applies when the normalised word is there; weak iff a
next token exists and its normalised form is a be-verb. -/
def thereRule : PhoneticRule where
  appliesTo w _ := cleanWord w = strL "there"
  ruleApply _ ctx :=
    if ctx.wordIndex + 1 < ctx.words.length then
      beVerbs.contains (cleanWord (ctx.words.getD (ctx.wordIndex + 1) []))
    else false
  getWeakForm := none

/-- `ThatRule.conclusion_indicators`. -/
def conclusionIndicators : List (List Char) :=
  [strL "know", strL "think", strL "believe", strL "feel", strL "say",
   strL "said", strL "tell", strL "told", strL "see", strL "saw",
   strL "hear", strL "heard", strL "understand", strL "realize",
   strL "realized", strL "assume", strL "suppose", strL "hope",
   strL "wish", strL "remember", strL "forget", strL "noticed",
   strL "mean", strL "means", strL "meant", strL "show", strL "shows",
   strL "showed", strL "prove", strL "proves"]

/-- The subject pronouns checked by `ThatRule`. -/
def subjectPronouns : List (List Char) :=
  [strL "he", strL "she", strL "it", strL "they", strL "we", strL "you",
   strL "i"]

/-- `ThatRule`: weak when preceded by a conclusion indicator, or when a
token two positions ahead exists and the next token is a subject
pronoun; strong otherwise. -/
def thatRule : PhoneticRule where
  appliesTo w _ := cleanWord w = strL "that"
  ruleApply _ ctx :=
    if 0 < ctx.wordIndex ∧
        conclusionIndicators.contains
          (cleanWord (ctx.words.getD (ctx.wordIndex - 1) [])) then true
    else if ctx.wordIndex + 2 < ctx.words.length ∧
        subjectPronouns.contains
          (cleanWord (ctx.words.getD (ctx.wordIndex + 1) [])) then true
    else false
  getWeakForm := none

/-- `HaveRule.past_participle_indicators`. -/
def pastParticipleIndicators : List (List Char) :=
  [strL "been", strL "done", strL "gone", strL "seen", strL "said",
   strL "made", strL "come", strL "taken", strL "given", strL "found",
   strL "thought", strL "worked", strL "called", strL "asked",
   strL "looked", strL "used", strL "tried", strL "left", strL "felt",
   strL "kept", strL "heard", strL "brought", strL "written",
   strL "shown", strL "moved", strL "played", strL "turned",
   strL "started", strL "opened", strL "closed", strL "happened",
   strL "become", strL "known", strL "put", strL "told", strL "helped",
   strL "changed", strL "wanted", strL "learned", strL "lived"]

/-- `HaveRule.possession_objects`. -/
def possessionObjects : List (List Char) :=
  [strL "a", strL "an", strL "the", strL "my", strL "your", strL "his",
   strL "her", strL "our", strL "their", strL "some", strL "money",
   strL "time", strL "car", strL "house", strL "food", strL "water",
   strL "coffee", strL "tea", strL "breakfast", strL "lunch",
   strL "dinner", strL "problem", strL "question", strL "idea",
   strL "plan"]

/-- The pronouns checked by the auxiliary-question heuristic of
`HaveRule.apply`. -/
def questionPronouns : List (List Char) :=
  [strL "you", strL "we", strL "they", strL "i"]

/-- `HaveRule.apply` (phonetic_rules.py lines 130-161): strong before
to or a possession object; weak before a past participle; weak when
first in a question whose second token is a subject pronoun from the
fixed list; strong by default. -/
def haveRuleApply (ctx : Ctx) : Bool :=
  let idx := ctx.wordIndex
  let words := ctx.words
  if idx + 1 < words.length ∧ cleanWord (words.getD (idx + 1) []) = strL "to" then
    false
  else if idx + 1 < words.length ∧
      possessionObjects.contains (cleanWord (words.getD (idx + 1) [])) then
    false
  else if idx + 1 < words.length ∧
      pastParticipleIndicators.contains (cleanWord (words.getD (idx + 1) [])) then
    true
  else if idx = 0 ∧ 2 < words.length ∧
      questionPronouns.contains (cleanWord (words.getD 1 [])) then
    true
  else
    false

/-- `HaveRule.get_weak_form` (phonetic_rules.py lines 163-191): keep the
H at index 0, after an immediately preceding punctuation token, or when
punctuation occurs among the up-to-two preceding tokens; else drop it. -/
def haveGetWeakFormCore (idx : Nat) (words : List (List Char)) : List Char :=
  if idx = 0 then strL "həv"
  else if 0 < idx ∧ isPunctTok (words.getD (idx - 1) []) then strL "həv"
  else if (List.range' (idx - 2) (idx - (idx - 2))).any
      (fun i => isPunctTok (words.getD i [])) then strL "həv"
  else strL "əv"

/-- `HaveRule`: the word have; with a custom weak form. -/
def haveRule : PhoneticRule where
  appliesTo w _ := cleanWord w = strL "have"
  ruleApply _ ctx := haveRuleApply ctx
  getWeakForm := some (fun _ ctx => haveGetWeakFormCore ctx.wordIndex ctx.words)

/-- `MustRule.obligation_indicators`. -/
def obligationIndicators : List (List Char) :=
  [strL "always", strL "never", strL "really", strL "definitely",
   strL "absolutely", strL "certainly"]

/-- The common participles checked in `MustRule.apply`. -/
def commonParticiples : List (List Char) :=
  [strL "done", strL "been", strL "gone", strL "seen", strL "said"]

/-- `MustRule.apply` (phonetic_rules.py lines 219-241): strong when the
lower-cased next token contains the substring have and the token two
ahead is a common participle; strong after an obligation indicator;
weak otherwise.  Note the next/previous tokens are only lower-cased
here, not normalised. -/
def mustRuleApply (ctx : Ctx) : Bool :=
  let idx := ctx.wordIndex
  let words := ctx.words
  if idx + 1 < words.length ∧
      containsSub (strL "have") (lowerL (words.getD (idx + 1) [])) ∧
      idx + 2 < words.length ∧
      commonParticiples.contains (lowerL (words.getD (idx + 2) [])) then
    false
  else if 0 < idx ∧
      obligationIndicators.contains (lowerL (words.getD (idx - 1) [])) then
    false
  else
    true

/-- The vowel letters plus y used by `MustRule.get_weak_form`. -/
def vowelY : List Char := ['a', 'e', 'i', 'o', 'u', 'y']

/-- `MustRule.get_weak_form` (phonetic_rules.py lines 243-270): inspect
the first character of the normalised next token; keep the t before a
vowel letter or y, drop it before any other character; keep it when no
next token exists or its normalisation is empty. -/
def mustGetWeakFormCore (idx : Nat) (words : List (List Char)) : List Char :=
  if idx + 1 < words.length then
    match cleanWord (words.getD (idx + 1) []) with
    | [] => strL "məst"
    | c :: _ => if vowelY.contains c then strL "məst" else strL "məs"
  else strL "məst"

/-- `MustRule`: the word must; with a custom weak form. -/
def mustRule : PhoneticRule where
  appliesTo w _ := cleanWord w = strL "must"
  ruleApply _ ctx := mustRuleApply ctx
  getWeakForm := some (fun _ ctx => mustGetWeakFormCore ctx.wordIndex ctx.words)

/-- `PositionalRule.weak_at_start`. -/
def weakAtStartMod : List (List Char) := [strL "the", strL "a", strL "an"]

/-- The auxiliaries list shared by `PositionalRule` and the app-variant
`should_use_weak`. -/
def auxiliaries : List (List Char) :=
  [strL "is", strL "are", strL "was", strL "were", strL "have",
   strL "has", strL "had", strL "do", strL "does", strL "did",
   strL "will", strL "would", strL "can", strL "could", strL "should",
   strL "must"]

/-- `PositionalRule.apply` (phonetic_rules.py lines 284-307): strong for
a first word outside the weak-at-start list, before a punctuation token,
for the last word, and for an auxiliary at index 0; else weak. -/
def positionalRuleApply (w : List Char) (ctx : Ctx) : Bool :=
  let clean := cleanWord w
  let idx := ctx.wordIndex
  let words := ctx.words
  if idx = 0 ∧ ¬ weakAtStartMod.contains clean then false
  else if idx + 1 < words.length ∧ isPunctTok (words.getD (idx + 1) []) then false
  else if idx + 1 = words.length then false
  else if auxiliaries.contains clean ∧ idx = 0 then false
  else true

/-- `PositionalRule`: always applicable. -/
def positionalRule : PhoneticRule where
  appliesTo _ _ := true
  ruleApply w ctx := positionalRuleApply w ctx
  getWeakForm := none

/-- `WeakFormProcessor.rules` in construction order. -/
def ruleList : List PhoneticRule :=
  [contractionRule, theVariationRule, thereRule, thatRule, haveRule,
   mustRule, positionalRule]

/-- The first-match-wins loop of `WeakFormProcessor.should_use_weak`;
default weak when no rule matches. -/
def runRules : List PhoneticRule → List Char → Ctx → Bool
  | [], _, _ => true
  | r :: rs, w, ctx =>
    if r.appliesTo w ctx then r.ruleApply w ctx else runRules rs w ctx

/-- `WeakFormProcessor.should_use_weak`. -/
def shouldUseWeak (w : List Char) (idx : Nat) (words : List (List Char)) : Bool :=
  runRules ruleList w ⟨idx, words⟩

/-- The orchestrator loop in `get_transcription_with_forms` that finds
the first rule with a `get_weak_form` attribute whose applicability test
matches, and applies its custom weak form. -/
def findCustomWeak : List PhoneticRule → List Char → Ctx → Option (List Char)
  | [], _, _ => none
  | r :: rs, w, ctx =>
    match r.getWeakForm with
    | some f => if r.appliesTo w ctx then some (f w ctx) else findCustomWeak rs w ctx
    | none => findCustomWeak rs w ctx

/-! ## App-variant resolver (src/app/transcription_service.py) -/

/-- The always-strong closed-class list of the app variant
(`IPATranscriptionService.should_use_weak`, Rule 1). -/
def alwaysStrong : List (List Char) :=
  [strL "i", strL "my", strL "may", strL "might", strL "ought",
   strL "by", strL "so", strL "while"]

/-- The weak-at-start list of the app variant (Rule 4; unlike the
modular `PositionalRule` it also contains there). -/
def weakAtStartApp : List (List Char) :=
  [strL "the", strL "a", strL "an", strL "there"]

/-- `IPATranscriptionService.should_use_weak` (app/transcription_service.py
lines 49-87): the monolithic rule chain of the app variant, whose first
two rules are the always-strong list and the apostrophe check. -/
def appShouldUseWeak (word : List Char) (idx : Nat)
    (words : List (List Char)) : Bool :=
  let w := cleanWord word
  if alwaysStrong.contains w then false
  else if w.contains apos then false
  else if w = strL "the" then false
  else if idx = 0 ∧ ¬ weakAtStartApp.contains w then false
  else if idx + 1 < words.length ∧ isPunctTok (words.getD (idx + 1) []) then false
  else if idx + 1 = words.length then false
  else if auxiliaries.contains w ∧ idx = 0 then false
  else true

/-! ## Per-word resolution (`ModularIPATranscriptionService`) -/

/-- The dialect tag: primary (american) or secondary (rp). -/
inductive Accent where
  | american
  | rp
deriving DecidableEq, Repr

/-- `ModularIPATranscriptionService.get_transcription_with_forms`
(transcription_service_modular.py lines 47-95).  The database lookup
(`db_service.lookup_word`, which lower-cases the word and may consult
either dialect column) is an opaque collaborator, passed in as the
function `lookup`; `some []` models an empty string, which the source
treats as not found (`if not ipa_raw`).  For the rp accent with a
dual-form entry: when weak forms are requested and the chain selects
weak, the have/must special case consults the first rule exposing
`get_weak_form` whose applicability test matches; otherwise the weak
pair member is returned, and the strong member when the chain selects
strong.  Single forms and every non-rp accent return the raw string. -/
def getTranscriptionWithForms
    (lookup : List Char → Accent → Option (List Char))
    (word : List Char) (accent : Accent) (useWeak : Bool)
    (wordIndex : Nat) (allWords : List (List Char)) : Option (List Char) :=
  match lookup word accent with
  | none => none
  | some raw =>
    if raw.isEmpty then none
    else if accent = .rp then
      match parseFormat raw with
      | .pair strong weak =>
        if useWeak && shouldUseWeak word wordIndex allWords then
          if (lowerL word).filter (fun c => c ≠ apos) = strL "have" ∨
              (lowerL word).filter (fun c => c ≠ apos) = strL "must" then
            match findCustomWeak ruleList word ⟨wordIndex, allWords⟩ with
            | some f => some f
            | none => some weak
          else some weak
        else some strong
      | .single t => some t
    else some raw

/-! ## Transformers (transformers.py) -/

/-- The anchored slash-envelope removal in `CharacterCorrector.transform`
(re.sub of an anchored slash, a nonempty slash-free group, and a closing
slash, with the group): strip the outer slashes when the whole string is
a slash-delimited nonempty slash-free body; otherwise unchanged. -/
def stripSlashEnv (l : List Char) : List Char :=
  match l with
  | '/' :: rest =>
    if rest.getLast? = some '/' ∧ ¬ rest.dropLast.isEmpty ∧
        rest.dropLast.all (fun c => c ≠ '/') then
      rest.dropLast
    else l
  | _ => l

/-- The rhotic fix of `CharacterCorrector.transform` for the american
accent: re.sub turning a long open back vowel at a word end (followed by
whitespace or end of string) into its r-coloured form, keeping the
whitespace.  The scanner reprocesses the kept whitespace character,
which cannot begin a new match, so left-to-right regex semantics are
preserved. -/
def rhoticFix : List Char → List Char
  | [] => []
  | [c] => [c]
  | c1 :: c2 :: rest =>
    if c1 = 'ɑ' ∧ c2 = 'ː' then
      match rest with
      | [] => ['ɑ', 'r']
      | d :: _ =>
        if isSpaceChar d then 'ɑ' :: 'r' :: rhoticFix rest
        else c1 :: rhoticFix (c2 :: rest)
    else c1 :: rhoticFix (c2 :: rest)

/-- `CharacterCorrector.transform` (transformers.py lines 40-63): strip
the slash envelope, drop remaining slashes, drop syllable dots, apply
the basic substitutions, and for the american accent the accent table
(in dict insertion order) followed by the rhotic fix. -/
def characterCorrector (l : List Char) (accent : Accent) : List Char :=
  let s1 := stripSlashEnv l
  let s2 := s1.filter (fun c => c ≠ '/')
  let s3 := s2.filter (fun c => c ≠ '.')
  let s4 := s3.map (fun c => if c = 'ɹ' then 'r' else c)
  let s5 := s4.map (fun c => if c = 'ɛ' then 'e' else c)
  let s6 := s5.map (fun c => if c = 'ɐ' then 'ə' else c)
  if accent = .american then
    let a1 := s6.map (fun c => if c = 'ɒ' then 'ɑ' else c)
    let a2 := replace2 'ə' 'ʊ' 'o' 'ʊ' a1
    let a3 := replace2 'ɪ' 'ə' 'ɪ' 'r' a2
    let a4 := replace2 'e' 'ə' 'e' 'r' a3
    let a5 := replace2 'ʊ' 'ə' 'ʊ' 'r' a4
    let a6 := replace2 'ɜ' 'ː' 'ɜ' 'r' a5
    rhoticFix a6
  else s6

/-- The vowel-ending class of `VowelDetector.vowel_end_pattern`
(duplicate characters in the source class removed). -/
def vowelEndSet : List Char :=
  ['æ', 'ɑ', 'ɒ', 'ɔ', 'ʊ', 'u', 'ɪ', 'i', 'e', 'o', 'ə', 'ʌ', 'ɜ',
   'a', 'ɛ', 'œ']

/-- The vowel-starting class of `VowelDetector.vowel_start_pattern`
(duplicate characters in the source class removed). -/
def vowelStartSet : List Char :=
  ['æ', 'ɑ', 'ɒ', 'ɔ', 'ʊ', 'ʉ', 'u', 'i', 'ɪ', 'e', 'ə', 'ʌ', 'ɜ',
   'o', 'ɘ', 'a', 'ɟ', 'ɨ', 'ɛ', 'ʎ', 'œ', 'ɶ', 'ɵ', 'ɯ', 'ɤ', 'ɦ',
   'ɐ', 'ɽ']

/-- `VowelDetector.ends_with_vowel`: the stripped transcription ends in
a vowel-class character optionally followed by the length mark. -/
def endsWithVowel (t : List Char) : Bool :=
  match (stripBoth t).reverse with
  | [] => false
  | c :: rest =>
    vowelEndSet.contains c ||
    (c = 'ː' && vowelEndSet.contains (rest.headD ' '))

/-- `VowelDetector.starts_with_vowel`: the stripped transcription starts
with a vowel-class character. -/
def startsWithVowel (t : List Char) : Bool :=
  match stripBoth t with
  | [] => false
  | c :: _ => vowelStartSet.contains c

/-- The spelling test of linking R (re.search for an r followed by word
characters up to the end, case-insensitive; the alternative of word
characters then a final r is subsumed by it).  Equivalent form: the
maximal word-character suffix of the original word contains an r or an
R. -/
def origEndsInR (l : List Char) : Bool :=
  let s := l.reverse.takeWhile pyWordChar
  s.contains 'r' || s.contains 'R'

/-- `LinkingRProcessor.exceptions`. -/
def linkingRExceptions : List (List Char) :=
  [strL "more", strL "sure", strL "pure"]

/-- One iteration of the linking-R loop for position i (reads only the
original entries, since the loop mutates index i alone). -/
def linkStep (cur nxt curOrig nxtOrig : List Char) : List Char :=
  if isPunctTokNoColon nxtOrig then cur
  else if origEndsInR curOrig ∧ endsWithVowel cur ∧ startsWithVowel nxt ∧
      ¬ linkingRExceptions.contains (cleanWordNoApos curOrig) ∧
      cur.getLast? ≠ some 'r' then
    cur ++ ['r']
  else cur

/-- `LinkingRProcessor.apply_linking_r` (transformers.py lines 110-140):
identity unless the accent is rp, there are at least two transcriptions
and the original list has the same length; otherwise rewrite every
position except the last by `linkStep`. -/
def applyLinkingR (tw orig : List (List Char)) (accent : Accent) :
    List (List Char) :=
  if accent ≠ .rp ∨ tw.length < 2 ∨ orig.length ≠ tw.length then tw
  else
    (List.range tw.length).map (fun i =>
      if i + 1 < tw.length then
        linkStep (tw.getD i []) (tw.getD (i + 1) [])
          (orig.getD i []) (orig.getD (i + 1) [])
      else tw.getD i [])

/-- The character class of the the-variation regex
(`TheVariationProcessor.the_pattern`, same class in the app variant),
with the literal space character the source class contains between u
and i listed separately in `theClassHasSpace` below; duplicates
removed. -/
def theClassVowels : List Char :=
  ['æ', 'ɑ', 'ɒ', 'ɔ', 'ʊ', 'u', 'i', 'ɪ', 'e', 'ə', 'ʌ', 'ɜ', 'a', 'ɛ']

/-- Backtracking helper for the the-variation scanner: the regex
one-or-more whitespace is greedy, and since the following single-char
group can match a space (the stray space in the source class), a failed
match at the first non-whitespace character backtracks so that the last
space of the whitespace run becomes the group.  Given the run minus its
first character (the one-or-more needs at least one), return the part
of the run after the last space, or none when the run has no space
after its first character. -/
def findLastSpaceSuffix : List Char → Option (List Char)
  | [] => none
  | c :: cs =>
    match findLastSpaceSuffix cs with
    | some suf => some suf
    | none => if c = ' ' then some cs else none

/-- Backtracking split of the accumulated whitespace run (see
`findLastSpaceSuffix`). -/
def btSplit (ws : List Char) : Option (List Char) :=
  match ws with
  | [] => none
  | _ :: t => findLastSpaceSuffix t

/-- States of the the-variation scanner: boundary (start or previous
character not a word character), previous character a word character,
the eth consumed at a boundary, and eth-plus-schwa consumed with the
whitespace run accumulated so far. -/
inductive TVSt where
  | st0
  | stW
  | stD
  | stP (ws : List Char)

/-- Scanner equivalent of the the-variation re.sub (a word boundary,
eth, schwa, one-or-more whitespace, then a single character of
`theClassVowels` or a space, replaced by eth, i, a space, and the group
character).  The word boundary is tracked by `st0`/`stW`; a failed or
backtracked match re-emits the pending characters and continues exactly
where the regex engine resumes scanning. -/
def tvAux : TVSt → List Char → List Char
  | .st0, [] => []
  | .stW, [] => []
  | .stD, [] => ['ð']
  | .stP ws, [] =>
    (match btSplit ws with
     | some suffix => strL "ði " ++ ' ' :: suffix
     | none => 'ð' :: 'ə' :: ws)
  | .st0, c :: cs =>
    if c = 'ð' then tvAux .stD cs
    else c :: tvAux (if pyWordChar c then .stW else .st0) cs
  | .stW, c :: cs =>
    c :: tvAux (if pyWordChar c then .stW else .st0) cs
  | .stD, c :: cs =>
    if c = 'ə' then tvAux (.stP []) cs
    else 'ð' :: c :: tvAux (if pyWordChar c then .stW else .st0) cs
  | .stP ws, c :: cs =>
    if isSpaceChar c then tvAux (.stP (ws ++ [c])) cs
    else if theClassVowels.contains c ∧ ¬ ws.isEmpty then
      strL "ði " ++ c :: tvAux .stW cs
    else
      match btSplit ws with
      | some suffix =>
        strL "ði " ++ ' ' :: suffix ++
          (if c = 'ð' then tvAux .stD cs
           else c :: tvAux (if pyWordChar c then .stW else .st0) cs)
      | none =>
        if ws.isEmpty then
          'ð' :: 'ə' :: c :: tvAux (if pyWordChar c then .stW else .st0) cs
        else
          'ð' :: 'ə' :: ws ++
            (if c = 'ð' then tvAux .stD cs
             else c :: tvAux (if pyWordChar c then .stW else .st0) cs)

/-- `TheVariationProcessor.transform` (transformers.py lines 93-95; the
accent argument is ignored by the source).  The same regex and
substitution implement `IPATranscriptionService.apply_the_variation`. -/
def theVariationTransform (l : List Char) : List Char := tvAux .st0 l

/-- `StressRemover.transform`: delete primary and secondary stress
markers. -/
def stressRemove (l : List Char) : List Char :=
  l.filter (fun c => c ≠ 'ˈ' ∧ c ≠ 'ˌ')

/-- Scanner for the sentence-ending-period rewrite inside
`RPSymbolTransformer.transform` (re.sub of optional whitespace, a
period, optional whitespace with a space-slash-slash-space replacement,
applied globally; every period matches because both whitespace parts may
be empty).  `skipWs` is true right after a match, while the consumed
trailing whitespace of that match is being dropped; `pending` holds
whitespace not yet known to precede a period. -/
def rpDot (skipWs : Bool) (pending : List Char) : List Char → List Char
  | [] => if skipWs then [] else pending
  | c :: cs =>
    if skipWs then
      if isSpaceChar c then rpDot true [] cs
      else if c = '.' then strL " // " ++ rpDot true [] cs
      else c :: rpDot false [] cs
    else
      if isSpaceChar c then rpDot false (pending ++ [c]) cs
      else if c = '.' then strL " // " ++ rpDot true [] cs
      else pending ++ c :: rpDot false [] cs

/-- `RPSymbolTransformer.transform` (transformers.py lines 153-172):
identity unless the accent is rp; otherwise wrap bangs and question
marks in parentheses, turn commas into space-slash, rewrite
sentence-ending periods (then the anchored final-period re.sub, dead
after the global one), and strip. -/
def rpSymbolTransform (l : List Char) (accent : Accent) : List Char :=
  if accent = .rp then
    let t1 := replaceChar '!' (strL "(!)") l
    let t2 := replaceChar '?' (strL "(?)") t1
    let t3 := replaceChar ',' (strL " /") t2
    let t4 := rpDot false [] t3
    let t5 := if t4.getLast? = some '.' then t4.dropLast ++ strL " //" else t4
    stripBoth t5
  else l

/-- Scanner for the punctuation-spacing fix in `apply_post_processing`
(re.sub of one-or-more whitespace followed by a punctuation character,
replaced by the punctuation character): `pending` accumulates a
whitespace run, dropped when a punctuation character follows. -/
def fpsAux (pending : List Char) : List Char → List Char
  | [] => pending
  | c :: cs =>
    if isSpaceChar c then fpsAux (pending ++ [c]) cs
    else if isPunct c then c :: fpsAux [] cs
    else pending ++ c :: fpsAux [] cs

/-- The punctuation-spacing fix applied to the joined string. -/
def fixPunctSpacing (l : List Char) : List Char := fpsAux [] l

/-- Python space-join of the transcription list. -/
def joinSpace (l : List (List Char)) : List Char :=
  List.intercalate [' '] l

/-! ## Tokenizer

Both services tokenize with the same `re.findall`: first alternative a
word-boundary, one-or-more word characters, an apostrophe, one-or-more
word characters and a word boundary; second alternative a word-boundary
word-character run; third a single character of the punctuation class.
`re.findall` scans left to right, trying the alternatives in order at
each position and skipping characters that match nothing.

Scanner equivalence: the engine is never positioned inside a
word-character run (matches always end at a run end or after a
punctuation character, and failed positions are non-word characters), so
the leading word boundary of the first two alternatives always holds
when the scanner is at a word character; the greedy word-character runs
are maximal; the trailing boundary after a greedy run holds trivially.
The scanner states below record: outside any token, inside a first
word run, a first word run followed by an apostrophe (pending, since the
first alternative still needs a word character), and inside the second
word run of a contraction (a further apostrophe cannot extend it). -/

/-- Tokenizer scanner states. -/
inductive TokSt where
  | tkOut
  | tkW (acc : List Char)
  | tkA (acc : List Char)
  | tkW2 (acc : List Char)

/-- The tokenizer scanner (see the section comment). -/
def tokAux : TokSt → List Char → List (List Char)
  | .tkOut, [] => []
  | .tkW acc, [] => [acc]
  | .tkA acc, [] => [acc, [apos]]
  | .tkW2 acc, [] => [acc]
  | .tkOut, c :: cs =>
    if pyWordChar c then tokAux (.tkW [c]) cs
    else if isPunct c then [c] :: tokAux .tkOut cs
    else tokAux .tkOut cs
  | .tkW acc, c :: cs =>
    if pyWordChar c then tokAux (.tkW (acc ++ [c])) cs
    else if c = apos then tokAux (.tkA acc) cs
    else if isPunct c then acc :: [c] :: tokAux .tkOut cs
    else acc :: tokAux .tkOut cs
  | .tkA acc, c :: cs =>
    if pyWordChar c then tokAux (.tkW2 (acc ++ apos :: [c])) cs
    else if isPunct c then acc :: [apos] :: [c] :: tokAux .tkOut cs
    else acc :: [apos] :: tokAux .tkOut cs
  | .tkW2 acc, c :: cs =>
    if pyWordChar c then tokAux (.tkW2 (acc ++ [c])) cs
    else if isPunct c then acc :: [c] :: tokAux .tkOut cs
    else acc :: tokAux .tkOut cs

/-- The tokenizer used by `transcribe_text` in both service variants. -/
def tokenize (l : List Char) : List (List Char) := tokAux .tkOut l

/-! ## Orchestrator (`ModularIPATranscriptionService`) -/

/-- `ModularIPATranscriptionService.process_word_list`
(transcription_service_modular.py lines 97-127): punctuation tokens pass
through; for word tokens the per-word resolution runs with the token
index and the full token list, its result (when truthy) goes through the
character corrector, and a falsy result substitutes the original token
verbatim. -/
def processWordList (lookup : List Char → Accent → Option (List Char))
    (tokens : List (List Char)) (accent : Accent) (useWeak : Bool) :
    List (List Char) :=
  tokens.enum.map (fun p =>
    if isPunctTok p.2 then p.2
    else
      match getTranscriptionWithForms lookup p.2 accent useWeak p.1 tokens with
      | some ipa => if ipa.isEmpty then p.2 else characterCorrector ipa accent
      | none => p.2)

/-- `ModularIPATranscriptionService.apply_post_processing`
(transcription_service_modular.py lines 129-163): linking R for rp,
space-join, punctuation-spacing fix, the-variation, rp symbol
transform, optional stress removal, final strip. -/
def applyPostProcessing (transcribed originalTokens : List (List Char))
    (accent : Accent) (ignoreStress : Bool) : List Char :=
  let tw := if accent = .rp then applyLinkingR transcribed originalTokens accent
            else transcribed
  let r1 := joinSpace tw
  let r2 := fixPunctSpacing r1
  let r3 := theVariationTransform r2
  let r4 := rpSymbolTransform r3 accent
  let r5 := if ignoreStress then stressRemove r4 else r4
  stripBoth r5

/-- `ModularIPATranscriptionService.transcribe_text`
(transcription_service_modular.py lines 165-187): tokenize, resolve each
token, post-process.  The return value of the source is this single
joined string — no record of unresolved words accompanies it. -/
def transcribeText (lookup : List Char → Accent → Option (List Char))
    (text : List Char) (accent : Accent) (useWeak ignoreStress : Bool) :
    List Char :=
  let tokens := tokenize text
  let transcribed := processWordList lookup tokens accent useWeak
  applyPostProcessing transcribed tokens accent ignoreStress

/-! ## Specification predicates for the tokenizer -/

/-- The token shapes the tokenizer contract allows: a nonempty run of
word characters, a contraction (two nonempty word-character runs around
a single internal apostrophe), or one punctuation character. -/
def TokShape (t : List Char) : Prop :=
  (t ≠ [] ∧ t.all pyWordChar = true) ∨
  (∃ a b, t = a ++ apos :: b ∧ a ≠ [] ∧ b ≠ [] ∧
    a.all pyWordChar = true ∧ b.all pyWordChar = true) ∨
  (∃ c, t = [c] ∧ isPunct c = true)

/-- Invariant carried by each scanner state: accumulated first runs are
nonempty word runs, and a second-run accumulator is already a
contraction shape. -/
def tokStInv : TokSt → Prop
  | .tkOut => True
  | .tkW acc => acc ≠ [] ∧ acc.all pyWordChar = true
  | .tkA acc => acc ≠ [] ∧ acc.all pyWordChar = true
  | .tkW2 acc => ∃ a b, acc = a ++ apos :: b ∧ a ≠ [] ∧ b ≠ [] ∧
      a.all pyWordChar = true ∧ b.all pyWordChar = true

/-- The input characters a scanner state is still holding. -/
def tokPend : TokSt → List Char
  | .tkOut => []
  | .tkW acc => acc
  | .tkA acc => acc ++ [apos]
  | .tkW2 acc => acc

/-- Right-maximality condition for an emitted word run: the remaining
input does not start with a word character, so the run cannot be
extended. -/
def wordBoundaryAfter : List Char → Bool
  | [] => true
  | d :: _ => !pyWordChar d

/-- Contraction preference condition: the remaining input does not
start with an apostrophe followed by a word character (in that case the
regex first alternative would have extended the token into a
contraction instead of emitting a bare word run). -/
def noContractionStart : List Char → Bool
  | a :: d :: _ => !(a = apos && pyWordChar d)
  | _ => true

/-- The tokenizer contract as a decomposition of the input, including
maximality: the input is consumed left to right, where a character that
is neither a word character nor punctuation produces no token, a
punctuation character produces itself as a token, a nonempty
word-character run produces itself as a token only when it cannot be
extended (the remainder starts with a non-word character and is not an
apostrophe-plus-word-character continuation), and a contraction token
is two nonempty word runs around one internal apostrophe whose second
run likewise cannot be extended.  Because a word or contraction token
requires the remainder to start with a non-word character, no token can
be followed — and hence, by the left-to-right structure, preceded —
immediately by a word character: word runs are maximal, and a
decomposition such as splitting ab into a and b is excluded. -/
inductive Toks : List Char → List (List Char) → Prop where
  | nil : Toks [] []
  | skip {c : Char} {l : List Char} {toks : List (List Char)} :
      pyWordChar c = false → isPunct c = false →
      Toks l toks → Toks (c :: l) toks
  | punct {c : Char} {l : List Char} {toks : List (List Char)} :
      isPunct c = true →
      Toks l toks → Toks (c :: l) ([c] :: toks)
  | word {r l : List Char} {toks : List (List Char)} :
      r ≠ [] → r.all pyWordChar = true →
      wordBoundaryAfter l = true → noContractionStart l = true →
      Toks l toks → Toks (r ++ l) (r :: toks)
  | contraction {r1 r2 l : List Char} {toks : List (List Char)} :
      r1 ≠ [] → r2 ≠ [] →
      r1.all pyWordChar = true → r2.all pyWordChar = true →
      wordBoundaryAfter l = true →
      Toks l toks → Toks (r1 ++ apos :: (r2 ++ l)) ((r1 ++ apos :: r2) :: toks)

/-! ## Tokenizer lemmas -/

/-- A non-word head character is a word boundary. -/
theorem wordBoundaryAfter_nonword {c : Char} (h : pyWordChar c = false)
    (l : List Char) : wordBoundaryAfter (c :: l) = true := by
  simp [wordBoundaryAfter, h]

/-- A remainder not starting with an apostrophe cannot start a
contraction continuation. -/
theorem noContractionStart_of_ne {c : Char} (h : ¬ c = apos)
    (l : List Char) : noContractionStart (c :: l) = true := by
  cases l <;> simp [noContractionStart, h]

/-- An apostrophe followed by a non-word character cannot start a
contraction continuation. -/
theorem noContractionStart_apos_nonword {c : Char}
    (h : pyWordChar c = false) (l : List Char) :
    noContractionStart (apos :: c :: l) = true := by
  simp [noContractionStart, h]

/-- Every token the scanner emits, from any state satisfying the state
invariant, has one of the allowed shapes. -/
theorem tokAux_shape (l : List Char) : ∀ (st : TokSt), tokStInv st →
    ∀ t ∈ tokAux st l, TokShape t := by
  induction l with
  | nil =>
    intro st hst t ht
    cases st with
    | tkOut => simp [tokAux] at ht
    | tkW acc =>
      simp [tokAux] at ht
      subst ht
      exact Or.inl hst
    | tkA acc =>
      simp [tokAux] at ht
      rcases ht with rfl | rfl
      · exact Or.inl hst
      · exact Or.inr (Or.inr ⟨apos, rfl, by decide⟩)
    | tkW2 acc =>
      simp [tokAux] at ht
      subst ht
      exact Or.inr (Or.inl hst)
  | cons c cs ih =>
    intro st hst t ht
    cases st with
    | tkOut =>
      by_cases hw : pyWordChar c = true
      · rw [tokAux, if_pos hw] at ht
        exact ih (.tkW [c]) ⟨by simp, by simp [hw]⟩ t ht
      · by_cases hp : isPunct c = true
        · rw [tokAux, if_neg hw, if_pos hp] at ht
          rcases List.mem_cons.mp ht with rfl | ht2
          · exact Or.inr (Or.inr ⟨c, rfl, hp⟩)
          · exact ih .tkOut trivial t ht2
        · rw [tokAux, if_neg hw, if_neg hp] at ht
          exact ih .tkOut trivial t ht
    | tkW acc =>
      by_cases hw : pyWordChar c = true
      · rw [tokAux, if_pos hw] at ht
        exact ih (.tkW (acc ++ [c]))
          ⟨by simp, by simp [List.all_append, hst.2, hw]⟩ t ht
      · by_cases ha : c = apos
        · rw [tokAux, if_neg hw, if_pos ha] at ht
          exact ih (.tkA acc) hst t ht
        · by_cases hp : isPunct c = true
          · rw [tokAux, if_neg hw, if_neg ha, if_pos hp] at ht
            rcases List.mem_cons.mp ht with rfl | ht2
            · exact Or.inl hst
            rcases List.mem_cons.mp ht2 with rfl | ht3
            · exact Or.inr (Or.inr ⟨c, rfl, hp⟩)
            · exact ih .tkOut trivial t ht3
          · rw [tokAux, if_neg hw, if_neg ha, if_neg hp] at ht
            rcases List.mem_cons.mp ht with rfl | ht2
            · exact Or.inl hst
            · exact ih .tkOut trivial t ht2
    | tkA acc =>
      by_cases hw : pyWordChar c = true
      · rw [tokAux, if_pos hw] at ht
        refine ih (.tkW2 (acc ++ apos :: [c]))
          ⟨acc, [c], rfl, hst.1, by simp, hst.2, by simp [hw]⟩ t ht
      · by_cases hp : isPunct c = true
        · rw [tokAux, if_neg hw, if_pos hp] at ht
          rcases List.mem_cons.mp ht with rfl | ht2
          · exact Or.inl hst
          rcases List.mem_cons.mp ht2 with rfl | ht3
          · exact Or.inr (Or.inr ⟨apos, rfl, by decide⟩)
          rcases List.mem_cons.mp ht3 with rfl | ht4
          · exact Or.inr (Or.inr ⟨c, rfl, hp⟩)
          · exact ih .tkOut trivial t ht4
        · rw [tokAux, if_neg hw, if_neg hp] at ht
          rcases List.mem_cons.mp ht with rfl | ht2
          · exact Or.inl hst
          rcases List.mem_cons.mp ht2 with rfl | ht3
          · exact Or.inr (Or.inr ⟨apos, rfl, by decide⟩)
          · exact ih .tkOut trivial t ht3
    | tkW2 acc =>
      obtain ⟨a, b, rfl, hane, hbne, haw, hbw⟩ := hst
      by_cases hw : pyWordChar c = true
      · rw [tokAux, if_pos hw] at ht
        refine ih (.tkW2 ((a ++ apos :: b) ++ [c]))
          ⟨a, b ++ [c], by simp, hane, by simp,
           haw, by simp [List.all_append, hbw, hw]⟩ t ht
      · by_cases hp : isPunct c = true
        · rw [tokAux, if_neg hw, if_pos hp] at ht
          rcases List.mem_cons.mp ht with rfl | ht2
          · exact Or.inr (Or.inl ⟨a, b, rfl, hane, hbne, haw, hbw⟩)
          rcases List.mem_cons.mp ht2 with rfl | ht3
          · exact Or.inr (Or.inr ⟨c, rfl, hp⟩)
          · exact ih .tkOut trivial t ht3
        · rw [tokAux, if_neg hw, if_neg hp] at ht
          rcases List.mem_cons.mp ht with rfl | ht2
          · exact Or.inr (Or.inl ⟨a, b, rfl, hane, hbne, haw, hbw⟩)
          · exact ih .tkOut trivial t ht2

/-- Order preservation: the concatenation of the emitted tokens is a
subsequence of the pending characters followed by the remaining
input — tokens appear in left-to-right input order and consist of input
characters, with only non-token characters dropped. -/
theorem tokAux_join_sublist (l : List Char) : ∀ (st : TokSt),
    ((tokAux st l).flatten).Sublist (tokPend st ++ l) := by
  induction l with
  | nil =>
    intro st
    cases st with
    | tkOut => simp [tokAux, tokPend]
    | tkW acc => simp [tokAux, tokPend]
    | tkA acc => simp [tokAux, tokPend]
    | tkW2 acc => simp [tokAux, tokPend]
  | cons c cs ih =>
    intro st
    cases st with
    | tkOut =>
      by_cases hw : pyWordChar c = true
      · rw [tokAux, if_pos hw]
        simpa [tokPend] using ih (.tkW [c])
      · by_cases hp : isPunct c = true
        · rw [tokAux, if_neg hw, if_pos hp]
          simpa [tokPend] using (ih .tkOut).cons₂ c
        · rw [tokAux, if_neg hw, if_neg hp]
          simpa [tokPend] using (ih .tkOut).cons c
    | tkW acc =>
      by_cases hw : pyWordChar c = true
      · rw [tokAux, if_pos hw]
        have := ih (.tkW (acc ++ [c]))
        simp only [tokPend] at this ⊢
        simpa [List.append_assoc] using this
      · by_cases ha : c = apos
        · rw [tokAux, if_neg hw, if_pos ha]
          subst ha
          have := ih (.tkA acc)
          simp only [tokPend] at this ⊢
          simpa [List.append_assoc] using this
        · by_cases hp : isPunct c = true
          · rw [tokAux, if_neg hw, if_neg ha, if_pos hp]
            have := ((ih .tkOut).cons₂ c).append_left acc
            simp only [tokPend] at this ⊢
            simpa using this
          · rw [tokAux, if_neg hw, if_neg ha, if_neg hp]
            have := ((ih .tkOut).cons c).append_left acc
            simp only [tokPend] at this ⊢
            simpa using this
    | tkA acc =>
      by_cases hw : pyWordChar c = true
      · rw [tokAux, if_pos hw]
        have := ih (.tkW2 (acc ++ apos :: [c]))
        simp only [tokPend] at this ⊢
        simpa [List.append_assoc] using this
      · by_cases hp : isPunct c = true
        · rw [tokAux, if_neg hw, if_pos hp]
          have := (((ih .tkOut).cons₂ c).cons₂ apos).append_left acc
          simp only [tokPend] at this ⊢
          simpa [List.append_assoc] using this
        · rw [tokAux, if_neg hw, if_neg hp]
          have := (((ih .tkOut).cons c).cons₂ apos).append_left acc
          simp only [tokPend] at this ⊢
          simpa [List.append_assoc] using this
    | tkW2 acc =>
      by_cases hw : pyWordChar c = true
      · rw [tokAux, if_pos hw]
        have := ih (.tkW2 (acc ++ [c]))
        simp only [tokPend] at this ⊢
        simpa [List.append_assoc] using this
      · by_cases hp : isPunct c = true
        · rw [tokAux, if_neg hw, if_pos hp]
          have := ((ih .tkOut).cons₂ c).append_left acc
          simp only [tokPend] at this ⊢
          simpa using this
        · rw [tokAux, if_neg hw, if_neg hp]
          have := ((ih .tkOut).cons c).append_left acc
          simp only [tokPend] at this ⊢
          simpa using this

/-- The scanner realises the decomposition contract: from any state
satisfying the state invariant, the tokens it emits on the remaining
input form a `Toks` decomposition of the pending characters followed by
that input. -/
theorem tokAux_toks (l : List Char) : ∀ st : TokSt, tokStInv st →
    Toks (tokPend st ++ l) (tokAux st l) := by
  induction l with
  | nil =>
    intro st hst
    cases st with
    | tkOut => exact Toks.nil
    | tkW acc =>
      show Toks (acc ++ []) [acc]
      exact Toks.word hst.1 hst.2 rfl rfl Toks.nil
    | tkA acc =>
      show Toks ((acc ++ [apos]) ++ []) [acc, [apos]]
      rw [List.append_nil]
      exact Toks.word hst.1 hst.2 (by decide) (by decide)
        (Toks.punct (by decide) Toks.nil)
    | tkW2 acc =>
      obtain ⟨a, b, rfl, hane, hbne, haw, hbw⟩ := hst
      show Toks ((a ++ apos :: b) ++ []) [a ++ apos :: b]
      rw [List.append_nil]
      have h := Toks.contraction (l := [])
        hane hbne haw hbw rfl Toks.nil
      simpa using h
  | cons c cs ih =>
    intro st hst
    cases st with
    | tkOut =>
      by_cases hw : pyWordChar c = true
      · show Toks ([] ++ c :: cs) (tokAux .tkOut (c :: cs))
        rw [tokAux, if_pos hw]
        exact ih (.tkW [c]) ⟨by simp, by simp [hw]⟩
      · have hw' : pyWordChar c = false := by simpa using hw
        by_cases hp : isPunct c = true
        · show Toks ([] ++ c :: cs) (tokAux .tkOut (c :: cs))
          rw [tokAux, if_neg hw, if_pos hp]
          exact Toks.punct hp (ih .tkOut trivial)
        · have hp' : isPunct c = false := by simpa using hp
          show Toks ([] ++ c :: cs) (tokAux .tkOut (c :: cs))
          rw [tokAux, if_neg hw, if_neg hp]
          exact Toks.skip hw' hp' (ih .tkOut trivial)
    | tkW acc =>
      obtain ⟨hne, hall⟩ := hst
      by_cases hw : pyWordChar c = true
      · show Toks (acc ++ c :: cs) (tokAux (.tkW acc) (c :: cs))
        rw [tokAux, if_pos hw]
        have h := ih (.tkW (acc ++ [c]))
          ⟨by simp, by simp [List.all_append, hall, hw]⟩
        simpa [tokPend, List.append_assoc] using h
      · have hw' : pyWordChar c = false := by simpa using hw
        by_cases ha : c = apos
        · subst ha
          show Toks (acc ++ apos :: cs) (tokAux (.tkW acc) (apos :: cs))
          rw [tokAux, if_neg hw, if_pos rfl]
          have h := ih (.tkA acc) ⟨hne, hall⟩
          simpa [tokPend, List.append_assoc] using h
        · by_cases hp : isPunct c = true
          · show Toks (acc ++ c :: cs) (tokAux (.tkW acc) (c :: cs))
            rw [tokAux, if_neg hw, if_neg ha, if_pos hp]
            exact Toks.word hne hall (wordBoundaryAfter_nonword hw' cs)
              (noContractionStart_of_ne ha cs)
              (Toks.punct hp (ih .tkOut trivial))
          · have hp' : isPunct c = false := by simpa using hp
            show Toks (acc ++ c :: cs) (tokAux (.tkW acc) (c :: cs))
            rw [tokAux, if_neg hw, if_neg ha, if_neg hp]
            exact Toks.word hne hall (wordBoundaryAfter_nonword hw' cs)
              (noContractionStart_of_ne ha cs)
              (Toks.skip hw' hp' (ih .tkOut trivial))
    | tkA acc =>
      obtain ⟨hne, hall⟩ := hst
      by_cases hw : pyWordChar c = true
      · show Toks ((acc ++ [apos]) ++ c :: cs) (tokAux (.tkA acc) (c :: cs))
        rw [tokAux, if_pos hw]
        have h := ih (.tkW2 (acc ++ apos :: [c]))
          ⟨acc, [c], rfl, hne, by simp, hall, by simp [hw]⟩
        simpa [tokPend, List.append_assoc] using h
      · have hw' : pyWordChar c = false := by simpa using hw
        by_cases hp : isPunct c = true
        · show Toks ((acc ++ [apos]) ++ c :: cs) (tokAux (.tkA acc) (c :: cs))
          rw [tokAux, if_neg hw, if_pos hp]
          have h := Toks.word hne hall
            (wordBoundaryAfter_nonword (by decide) (c :: cs))
            (noContractionStart_apos_nonword hw' cs)
            (Toks.punct (c := apos) (by decide)
              (Toks.punct hp (ih .tkOut trivial)))
          simpa [tokPend, List.append_assoc] using h
        · have hp' : isPunct c = false := by simpa using hp
          show Toks ((acc ++ [apos]) ++ c :: cs) (tokAux (.tkA acc) (c :: cs))
          rw [tokAux, if_neg hw, if_neg hp]
          have h := Toks.word hne hall
            (wordBoundaryAfter_nonword (by decide) (c :: cs))
            (noContractionStart_apos_nonword hw' cs)
            (Toks.punct (c := apos) (by decide)
              (Toks.skip hw' hp' (ih .tkOut trivial)))
          simpa [tokPend, List.append_assoc] using h
    | tkW2 acc =>
      obtain ⟨a, b, rfl, hane, hbne, haw, hbw⟩ := hst
      by_cases hw : pyWordChar c = true
      · show Toks ((a ++ apos :: b) ++ c :: cs)
          (tokAux (.tkW2 (a ++ apos :: b)) (c :: cs))
        rw [tokAux, if_pos hw]
        have h := ih (.tkW2 ((a ++ apos :: b) ++ [c]))
          ⟨a, b ++ [c], by simp, hane, by simp, haw,
           by simp [List.all_append, hbw, hw]⟩
        simpa [tokPend, List.append_assoc] using h
      · have hw' : pyWordChar c = false := by simpa using hw
        by_cases hp : isPunct c = true
        · show Toks ((a ++ apos :: b) ++ c :: cs)
            (tokAux (.tkW2 (a ++ apos :: b)) (c :: cs))
          rw [tokAux, if_neg hw, if_pos hp]
          have h := Toks.contraction hane hbne haw hbw
            (wordBoundaryAfter_nonword hw' cs)
            (Toks.punct hp (ih .tkOut trivial))
          simpa [tokPend, List.append_assoc] using h
        · have hp' : isPunct c = false := by simpa using hp
          show Toks ((a ++ apos :: b) ++ c :: cs)
            (tokAux (.tkW2 (a ++ apos :: b)) (c :: cs))
          rw [tokAux, if_neg hw, if_neg hp]
          have h := Toks.contraction hane hbne haw hbw
            (wordBoundaryAfter_nonword hw' cs)
            (Toks.skip hw' hp' (ih .tkOut trivial))
          simpa [tokPend, List.append_assoc] using h

/-! ## Parser lemmas -/

/-- Splitting at the separator recovers the two halves when the first
half does not itself contain the separator. -/
theorem splitFirst_commaSp_append (s w : List Char)
    (h : containsSub commaSp s = false) :
    splitFirst commaSp (s ++ (commaSp ++ w)) = (s, w) := by
  induction s with
  | nil => simp [splitFirst, commaSp, List.isPrefixOf]
  | cons c cs ih =>
    rw [containsSub] at h
    rcases Bool.or_eq_false_iff.mp h with ⟨h1, h2⟩
    have h3 : commaSp.isPrefixOf (c :: (cs ++ (commaSp ++ w))) = false := by
      cases cs with
      | nil => simp [commaSp, List.isPrefixOf]
      | cons d ds => simpa [commaSp, List.isPrefixOf] using h1
    simp only [List.cons_append, splitFirst, List.append_eq]
    rw [h3]
    simp [ih h2]

/-- The separator inserted between the halves is always found. -/
theorem containsSub_commaSp_append (s w : List Char) :
    containsSub commaSp (s ++ (commaSp ++ w)) = true := by
  induction s with
  | nil => simp [containsSub, commaSp, List.isPrefixOf]
  | cons c cs ih => simp [containsSub, ih]

/-- The envelope content of a built envelope is the two halves around
the separator. -/
theorem envContent_envelope (s w : List Char) :
    envContent (envelope s w) = s ++ (commaSp ++ w) := by
  have h1 : (envelope s w).drop 2 = (s ++ (commaSp ++ w)) ++ spSlash := by
    simp [envelope, slashSp, List.append_assoc]
  rw [envContent, h1, dropRight2]
  have h2 : ((s ++ (commaSp ++ w)) ++ spSlash).length - 2 =
      (s ++ (commaSp ++ w)).length := by
    simp [spSlash, commaSp]
    omega
  rw [h2, List.take_left]

/-- Parsing a built envelope yields the trimmed halves, provided the
strong half does not contain the separator. -/
theorem parseFormat_envelope (s w : List Char)
    (h : containsSub commaSp s = false) :
    parseFormat (envelope s w) = .pair (stripBoth s) (stripBoth w) := by
  have hne : (envelope s w).isEmpty = false := by
    simp [envelope, slashSp]
  have hpre : slashSp.isPrefixOf (envelope s w) = true := by
    simp [envelope, slashSp, List.isPrefixOf]
  have hsuf : spSlash.isSuffixOf (envelope s w) = true := by
    rw [List.isSuffixOf_iff_suffix]
    have h1 : envelope s w = (slashSp ++ s ++ commaSp ++ w) ++ spSlash := by
      simp [envelope, List.append_assoc]
    rw [h1]
    exact List.suffix_append _ _
  rw [parseFormat, hne, hpre, hsuf]
  simp only [Bool.not_true, Bool.or_self, Bool.or_false, Bool.false_or,
    Bool.false_eq_true, if_false, envContent_envelope,
    containsSub_commaSp_append s w, if_true, splitFirst_commaSp_append s w h]

/-! ## Claim theorems -/

/-- C3: for every string, the parser detects the exact two-character
envelope; with the envelope and the separator present it returns the
pair of trimmed halves split at the first separator occurrence; with the
envelope but no separator it returns the stripped content as a single
form; and any string without the envelope is returned verbatim as a
single form. -/
theorem claim3_parse_format (l : List Char) :
    (slashSp.isPrefixOf l = true → spSlash.isSuffixOf l = true →
      (containsSub commaSp (envContent l) = true →
        parseFormat l = .pair (stripBoth (splitFirst commaSp (envContent l)).1)
          (stripBoth (splitFirst commaSp (envContent l)).2)) ∧
      (containsSub commaSp (envContent l) = false →
        parseFormat l = .single (stripBoth (envContent l)))) ∧
    ((slashSp.isPrefixOf l && spSlash.isSuffixOf l) = false →
      parseFormat l = .single l) := by
  constructor
  · intro hp hs
    have hne : l.isEmpty = false := by
      cases l with
      | nil => simp [slashSp, List.isPrefixOf] at hp
      | cons c cs => rfl
    constructor
    · intro hc
      rw [parseFormat, hne, hp, hs]
      simp [hc]
    · intro hc
      rw [parseFormat, hne, hp, hs]
      simp [hc]
  · intro h
    rcases Bool.and_eq_false_iff.mp h with h1 | h1
    · simp [parseFormat, h1]
    · simp [parseFormat, h1]

/-- Witness for C3 at concrete inputs: a well-formed pair envelope and
an envelope-free string. -/
theorem claim3_parse_format_witness :
    parseFormat (strL "/ a, b /") =
      .pair (stripBoth (splitFirst commaSp (envContent (strL "/ a, b /"))).1)
        (stripBoth (splitFirst commaSp (envContent (strL "/ a, b /"))).2) ∧
    parseFormat (strL "xyz") = .single (strL "xyz") :=
  ⟨((claim3_parse_format (strL "/ a, b /")).1 (by decide) (by decide)).1
      (by decide),
   (claim3_parse_format (strL "xyz")).2 (by decide)⟩

/-- C9 counterexample: with a strong half containing the separator
followed by a space, parsing splits at the wrong place and re-joining
does not reconstruct the envelope (both halves are already trimmed, so
trimming is not the cause). -/
theorem claim9_roundtrip_counterexample :
    parseFormat (envelope (strL "a , b") (strL "c")) =
      .pair (strL "a") (strL "b, c") ∧
    stripBoth (strL "a , b") = strL "a , b" ∧
    stripBoth (strL "c") = strL "c" ∧
    rejoinForm (parseFormat (envelope (strL "a , b") (strL "c"))) ≠
      envelope (strL "a , b") (strL "c") := by
  decide

/-- C9 amended: the round-trip holds for every pair whose strong half
does not contain the separator and whose halves carry no leading or
trailing whitespace. -/
theorem claim9_roundtrip_amended (s w : List Char)
    (h1 : containsSub commaSp s = false)
    (h2 : stripBoth s = s) (h3 : stripBoth w = w) :
    parseFormat (envelope s w) = .pair s w ∧
    rejoinForm (parseFormat (envelope s w)) = envelope s w := by
  have hp := parseFormat_envelope s w h1
  rw [h2, h3] at hp
  exact ⟨hp, by rw [hp]; rfl⟩

/-- Witness for the amended C9 at a concrete pair. -/
theorem claim9_roundtrip_amended_witness :
    rejoinForm (parseFormat (envelope (strL "strɒŋ") (strL "wiːk"))) =
      envelope (strL "strɒŋ") (strL "wiːk") :=
  (claim9_roundtrip_amended (strL "strɒŋ") (strL "wiːk")
    (by decide) (by decide) (by decide)).2

/-- C10: for the primary (american) dialect, per-word resolution
returns the raw lookup string unchanged whenever the word is found with
a nonempty entry — the dual-form envelope is never parsed there — and
the result is independent of the weak-forms flag, the word index, and
the surrounding token list (two-run noninterference). -/
theorem claim10_primary_passthrough
    (lookup : List Char → Accent → Option (List Char)) (word : List Char) :
    (∀ (useWeak : Bool) (idx : Nat) (words : List (List Char))
        (raw : List Char),
      lookup word .american = some raw → raw.isEmpty = false →
      getTranscriptionWithForms lookup word .american useWeak idx words =
        some raw) ∧
    (∀ (u₁ u₂ : Bool) (i₁ i₂ : Nat) (ws₁ ws₂ : List (List Char)),
      getTranscriptionWithForms lookup word .american u₁ i₁ ws₁ =
        getTranscriptionWithForms lookup word .american u₂ i₂ ws₂) := by
  constructor
  · intro useWeak idx words raw hl hne
    rw [getTranscriptionWithForms, hl]
    simp [hne]
  · intro u₁ u₂ i₁ i₂ ws₁ ws₂
    cases hl : lookup word .american with
    | none => rw [getTranscriptionWithForms, hl, getTranscriptionWithForms, hl]
    | some raw =>
      rw [getTranscriptionWithForms, hl, getTranscriptionWithForms, hl]
      simp

/-- Witness for C10: a lookup whose american entry carries the
dual-form envelope is still returned verbatim, under two different
contexts. -/
theorem claim10_primary_passthrough_witness :
    getTranscriptionWithForms
      (fun _ _ => some (strL "/ hæv, əv /")) (strL "have") .american
      true 0 [strL "have"] = some (strL "/ hæv, əv /") ∧
    getTranscriptionWithForms
      (fun _ _ => some (strL "/ hæv, əv /")) (strL "have") .american
      true 0 [strL "have"] =
    getTranscriptionWithForms
      (fun _ _ => some (strL "/ hæv, əv /")) (strL "have") .american
      false 7 [] :=
  ⟨(claim10_primary_passthrough (fun _ _ => some (strL "/ hæv, əv /"))
      (strL "have")).1 true 0 [strL "have"] (strL "/ hæv, əv /") rfl
      (by decide),
   (claim10_primary_passthrough (fun _ _ => some (strL "/ hæv, əv /"))
      (strL "have")).2 true false 0 7 [strL "have"] []⟩

/-- C5: the custom weak form of have is the H-retaining form exactly at
index 0 or with a punctuation token among the up-to-two immediately
preceding tokens, and the H-dropped form in every other case; and on
the tokens of the scenario input the end-to-end per-word resolution of
Have at index 0 yields the H-retaining weak form.  (The characterisation
is stated for every index and token list; out-of-range subscripts read
the empty token, which is what the orchestrator-supplied contexts make
unreachable.) -/
theorem claim5_have_custom_weak_form :
    (∀ (idx : Nat) (words : List (List Char)),
      haveGetWeakFormCore idx words =
        if idx = 0 ∨ (0 < idx ∧ isPunctTok (words.getD (idx - 1) []) = true) ∨
            (2 ≤ idx ∧ isPunctTok (words.getD (idx - 2) []) = true) then
          strL "həv"
        else strL "əv") ∧
    getTranscriptionWithForms
      (fun w _ => if lowerL w = strL "have" then some (strL "/ hæv, əv /")
                  else none)
      (strL "Have") .rp true 0 (tokenize (strL "Have you done it?")) =
      some (strL "həv") := by
  constructor
  · intro idx words
    match idx with
    | 0 => simp [haveGetWeakFormCore]
    | 1 =>
      by_cases h : isPunctTok (words[0]?.getD []) = true
      · simp [haveGetWeakFormCore, h, List.range']
      · simp [haveGetWeakFormCore, h, List.range']
    | (n + 2) =>
      have e1 : n + 2 - 2 = n := by omega
      have e2 : n + 2 - (n + 2 - 2) = 2 := by omega
      have e3 : n + 2 - 1 = n + 1 := by omega
      by_cases h1 : isPunctTok (words[n + 1]?.getD []) = true
      · simp [haveGetWeakFormCore, e1, e2, e3, h1, List.range']
      · by_cases h2 : isPunctTok (words[n]?.getD []) = true
        · simp [haveGetWeakFormCore, e1, e2, e3, h1, h2, List.range']
        · simp [haveGetWeakFormCore, e1, e2, e3, h1, h2, List.range']
  · decide

/-- C6: with the normalised current word equal to there, the full rule
chain decides weak exactly when a next token exists whose normalised
form is a be-verb — no earlier rule pre-empts the there rule, because a
word normalising to there can contain no apostrophe and is not the. -/
theorem claim6_there_rule (word : List Char) (idx : Nat)
    (words : List (List Char)) (h : cleanWord word = strL "there") :
    shouldUseWeak word idx words =
      (decide (idx + 1 < words.length) &&
        beVerbs.contains (cleanWord (words.getD (idx + 1) []))) := by
  have hnoapos : word.contains apos = false := by
    by_contra hc
    have hm : apos ∈ word := List.elem_iff.mp (Bool.of_not_eq_false hc)
    have hmc : apos ∈ cleanWord word := by
      refine List.mem_filter.mpr ⟨List.mem_map.mpr ⟨apos, hm, ?_⟩, by decide⟩
      decide
    rw [h] at hmc
    exact absurd hmc (by decide)
  have hcr : ¬ (contractionRule.appliesTo word ⟨idx, words⟩ = true) := by
    simp only [contractionRule]
    intro hx
    rw [hnoapos] at hx
    exact Bool.false_ne_true hx
  have hthe : ¬ (theVariationRule.appliesTo word ⟨idx, words⟩ = true) := by
    simp only [theVariationRule, h]
    decide
  have hthere : thereRule.appliesTo word ⟨idx, words⟩ = true := by
    simp only [thereRule, h]
    decide
  rw [shouldUseWeak, ruleList]
  rw [runRules, if_neg hcr]
  rw [runRules, if_neg hthe]
  rw [runRules, if_pos hthere]
  show (if idx + 1 < words.length then
      beVerbs.contains (cleanWord (words.getD (idx + 1) [])) else false) = _
  by_cases hlt : idx + 1 < words.length
  · simp [hlt]
  · simp [hlt]

/-- Witness for C6: the scenario input (there followed by is) resolves
weak. -/
theorem claim6_there_rule_witness :
    shouldUseWeak (strL "there") 0
      (tokenize (strL "there is a problem")) = true := by
  rw [claim6_there_rule (strL "there") 0
    (tokenize (strL "there is a problem")) (by decide)]
  decide

/-- C7: when a next token exists and its normalised form is nonempty,
the custom weak form of must keeps the t exactly when that normalised
next token starts with a vowel letter or y, and drops it otherwise —
the decision is a function of the orthographic token list alone
(`mustGetWeakFormCore` takes no transcription input). -/
theorem claim7_must_custom_weak_form (idx : Nat) (words : List (List Char))
    (h1 : idx + 1 < words.length) (c : Char) (rest : List Char)
    (h2 : cleanWord (words.getD (idx + 1) []) = c :: rest) :
    mustGetWeakFormCore idx words =
      (if vowelY.contains c then strL "məst" else strL "məs") := by
  rw [mustGetWeakFormCore, if_pos h1, h2]

/-- Witness for C7: must before a vowel-initial word keeps the t, and
before a consonant-initial word drops it. -/
theorem claim7_must_custom_weak_form_witness :
    mustGetWeakFormCore 0 [strL "must", strL "eat"] = strL "məst" ∧
    mustGetWeakFormCore 0 [strL "must", strL "go"] = strL "məs" := by
  constructor
  · rw [claim7_must_custom_weak_form 0 [strL "must", strL "eat"]
      (by decide) 'e' (strL "at") (by decide)]
    decide
  · rw [claim7_must_custom_weak_form 0 [strL "must", strL "go"]
      (by decide) 'g' (strL "o") (by decide)]
    decide

/-- C2 counterexample: in the modular end-to-end path there is no
always-strong pre-filter — the word my (a member of the always-strong
list) at a non-initial, non-final position resolves weak through the
rule chain, and per-word resolution returns the weak member of its
dual-form entry instead of the strong one. -/
theorem claim2_prefilter_counterexample :
    alwaysStrong.contains (cleanWord (strL "my")) = true ∧
    shouldUseWeak (strL "my") 1
      [strL "oh", strL "my", strL "word", strL "now"] = true ∧
    getTranscriptionWithForms
      (fun w _ => if w = strL "my" then some (strL "/ maɪ, mi /") else none)
      (strL "my") .rp true 1 [strL "oh", strL "my", strL "word", strL "now"] =
      some (strL "mi") ∧
    parseFormat (strL "/ maɪ, mi /") = .pair (strL "maɪ") (strL "mi") := by
  decide

/-- C2 amended: the always-strong list and the apostrophe check
short-circuit to strong only in the app-variant resolver
(`appShouldUseWeak`), where they run before every positional rule; in
the modular end-to-end path only apostrophe-bearing words short-circuit
to strong (through the contraction rule, first in the chain), and the
always-strong list is absent. -/
theorem claim2_prefilter_amended :
    (∀ (w : List Char) (idx : Nat) (words : List (List Char)),
        alwaysStrong.contains (cleanWord w) = true →
        appShouldUseWeak w idx words = false) ∧
    (∀ (w : List Char) (idx : Nat) (words : List (List Char)),
        apos ∈ w → appShouldUseWeak w idx words = false) ∧
    (∀ (w : List Char) (idx : Nat) (words : List (List Char)),
        apos ∈ w → shouldUseWeak w idx words = false) := by
  refine ⟨?_, ?_, ?_⟩
  · intro w idx words h
    have hm : cleanWord w ∈ alwaysStrong := List.elem_iff.mp h
    simp [appShouldUseWeak, hm]
  · intro w idx words h
    have hmc : apos ∈ cleanWord w := by
      refine List.mem_filter.mpr ⟨List.mem_map.mpr ⟨apos, h, ?_⟩, by decide⟩
      decide
    by_cases h1 : cleanWord w ∈ alwaysStrong
    · simp [appShouldUseWeak, h1]
    · simp [appShouldUseWeak, h1, hmc]
  · intro w idx words h
    have hc : w.contains apos = true := List.elem_iff.mpr h
    have har : contractionRule.appliesTo w ⟨idx, words⟩ = true := by
      simp only [contractionRule]
      exact hc
    rw [shouldUseWeak, ruleList, runRules, if_pos har]
    rfl

/-- Witness for the amended C2: the always-strong word my forces strong
in the app variant, and an apostrophe-bearing word forces strong in
both resolvers. -/
theorem claim2_prefilter_amended_witness :
    appShouldUseWeak (strL "my") 1
      [strL "oh", strL "my", strL "word", strL "now"] = false ∧
    appShouldUseWeak (strL "don" ++ apos :: strL "t") 1
      [strL "a", strL "don" ++ apos :: strL "t", strL "b", strL "c"] = false ∧
    shouldUseWeak (strL "don" ++ apos :: strL "t") 1
      [strL "a", strL "don" ++ apos :: strL "t", strL "b", strL "c"] = false :=
  ⟨claim2_prefilter_amended.1 (strL "my") 1
      [strL "oh", strL "my", strL "word", strL "now"] (by decide),
   claim2_prefilter_amended.2.1 (strL "don" ++ apos :: strL "t") 1
      [strL "a", strL "don" ++ apos :: strL "t", strL "b", strL "c"]
      (by decide),
   claim2_prefilter_amended.2.2 (strL "don" ++ apos :: strL "t") 1
      [strL "a", strL "don" ++ apos :: strL "t", strL "b", strL "c"]
      (by decide)⟩

/-- C8 evidence: the scenario rewrite works (reduced the before a
vowel-initial segment becomes the pre-vocalic form), but with two
spaces before a consonant the transform also rewrites — the stray
space inside the vowel character class of the source regex matches the
second space — contradicting the vowel-only comment in the source and
the claim that nothing else changes. -/
theorem claim8_the_variation_evidence :
    theVariationTransform (strL "ðə æpəl") = strL "ði æpəl" ∧
    theVariationTransform (strL "ðə  k") = strL "ði  k" ∧
    theVariationTransform (strL "ðə k") = strL "ðə k" := by
  decide

/-- C4: tokenization is a pure total function (it is a Lean function);
its output is a `Toks` decomposition of the input, so every emitted
word token is a MAXIMAL run of word characters optionally containing
one internal apostrophe — it cannot be extended by an adjacent word
character on either side, excluding e.g. splitting ab into a and b —
and every other token is a single punctuation character, emitted in
left-to-right input order; in addition every token has an allowed
shape, the concatenation of the tokens is a subsequence of the input
(order preserved, nothing duplicated), and a character that is neither
a word character nor punctuation (whitespace and all other characters)
produces no token. -/
theorem claim4_tokenizer (l : List Char) :
    Toks l (tokenize l) ∧
    (∀ t ∈ tokenize l, TokShape t) ∧
    ((tokenize l).flatten).Sublist l ∧
    (∀ c, pyWordChar c = false → isPunct c = false →
      ∀ cs, tokenize (c :: cs) = tokenize cs) := by
  refine ⟨tokAux_toks l .tkOut trivial, tokAux_shape l .tkOut trivial, ?_, ?_⟩
  · simpa [tokPend] using tokAux_join_sublist l .tkOut
  · intro c hw hp cs
    rw [tokenize, tokenize, tokAux, if_neg (by simp [hw]), if_neg (by simp [hp])]

/-- Witness for C4: the decomposition holds on a concrete contraction
input, the emitted contraction token has an allowed shape, and a
character outside both classes emits nothing. -/
theorem claim4_tokenizer_witness :
    Toks (strL "don" ++ apos :: strL "t go!")
      (tokenize (strL "don" ++ apos :: strL "t go!")) ∧
    TokShape (strL "don" ++ apos :: strL "t") ∧
    tokenize ('@' :: strL "ok") = tokenize (strL "ok") :=
  ⟨(claim4_tokenizer (strL "don" ++ apos :: strL "t go!")).1,
   (claim4_tokenizer (strL "don" ++ apos :: strL "t go!")).2.1
      (strL "don" ++ apos :: strL "t") (by decide),
   (claim4_tokenizer []).2.2.2 '@' (by decide) (by decide) (strL "ok")⟩

/-- C1 evidence: the top-level transcription returns only the joined
string — an unresolved word passes through as its literal text, but no
record of unresolved words accompanies the result (the caller in
main.py reads a transcription/not_found record that is never
produced). -/
theorem claim1_transcribe_evidence :
    transcribeText (fun _ _ => none) (strL "hello") .american true false =
      strL "hello" ∧
    transcribeText (fun _ _ => none) (strL "hello world") .rp true false =
      strL "hello world" := by
  decide

end IPA
